import Mathlib

/-!
Verification development for `src/public/scripts/print-fillers.js`.

The script turns textual placeholders of the form colon + optional
whitespace + a run of at least five underscores into fillable input
elements at print time, wrapping each transformed text node in a marker
`span` that stores the original text, and reverts the document after
printing.

The embedding below models the DOM fragment the script manipulates:
text values are lists of characters, elements carry a (lowercase) tag, a
class string, an attribute list, the `data-original` dataset entry and a
child list.  The regex `/:(\s*)(_{5,})/g` is modelled by an explicit
leftmost matcher over character lists.
-/

namespace PrintFillers

/-- Whitespace class of the JavaScript regex escape used in the pattern
(the characters matched by a backslash-s): ASCII whitespace plus the
Unicode space separators, line/paragraph separators and the BOM. -/
def isJsSpace (c : Char) : Bool :=
  c = ' ' || c = '\t' || c = '\n' || c = '\r' || c = '\x0b' || c = '\x0c' ||
  c = ' ' || c = ' ' || (' ' ≤ c && c ≤ ' ') ||
  c = ' ' || c = ' ' || c = ' ' || c = ' ' ||
  c = '　' || c = '﻿'

/-- `WRAPPER_CLASS` constant of the script. -/
def WRAPPER_CLASS : String := "print-fillers-wrapper"

/-- `INPUT_CLASS` constant of the script. -/
def INPUT_CLASS : String := "print-fillable-input"

/-- `STYLE_ID` constant of the script. -/
def STYLE_ID : String := "print-fillers-style"

/-- DOM node: a text node with its value, or an element with lowercase
tag name, class attribute, remaining attributes, the `data-original`
dataset entry used by the script, and children. -/
inductive Node where
  | text : List Char → Node
  | elem : String → String → List (String × String) → Option (List Char) → List Node → Node

/-- One attempt of the pattern `:(\s*)(_{5,})` at a position just after a
colon: greedily take the whitespace capture, then require a run of at
least five underscores (greedy, so the whole run).  Returns the captured
whitespace, the underscore-run length and the rest of the text after the
match.  Backtracking cannot help the regex here because an underscore is
not whitespace, so this deterministic reading is exact. -/
def matchAt (t : List Char) : Option (List Char × Nat × List Char) :=
  if 5 ≤ ((t.dropWhile isJsSpace).takeWhile (fun x => x = '_')).length then
    some (t.takeWhile isJsSpace,
          ((t.dropWhile isJsSpace).takeWhile (fun x => x = '_')).length,
          (t.dropWhile isJsSpace).dropWhile (fun x => x = '_'))
  else none

/-- Leftmost match of `PATTERN = /:(\s*)(_{5,})/g` in a text: returns the
text before the match, the captured whitespace, the underscore-run
length and the text after the match, or `none` when the pattern does not
occur (the semantics of `PATTERN.exec` after `lastIndex = 0`, and of
`PATTERN.test`). -/
def findFirst : List Char → Option (List Char × List Char × Nat × List Char)
  | [] => none
  | c :: t =>
    match (if c = ':' then matchAt t else none) with
    | some (s, k, r) => some ([], s, k, r)
    | none =>
      match findFirst t with
      | some (b, s, k, r) => some (c :: b, s, k, r)
      | none => none

/-- A fragment piece built by `replaceInTextNode`: a plain text chunk or
a fillable input recorded by its underscore count. -/
inductive Piece where
  | txt : List Char → Piece
  | field : Nat → Piece

/-- The pieces one loop iteration of `replaceInTextNode` appends for a
match: the preceding text when non-empty, the colon plus captured
whitespace as plain text, and the input for the underscore run. -/
def matchPieces (b s : List Char) (k : Nat) : List Piece :=
  (if b = [] then [] else [Piece.txt b]) ++ [Piece.txt (':' :: s), Piece.field k]

/-- Fuel-indexed match loop of `replaceInTextNode`: repeatedly take the
leftmost match, emit its pieces, continue after it; when no further
match exists emit the non-empty remainder.  The fuel only bounds the
number of matches; `l.length` fuel is always enough because each match
consumes at least six characters. -/
def buildPiecesAux : Nat → List Char → List Piece
  | _, [] => []
  | 0, l => [Piece.txt l]
  | Nat.succ fuel, l =>
    match findFirst l with
    | none => [Piece.txt l]
    | some (b, s, k, r) => matchPieces b s k ++ buildPiecesAux fuel r

/-- The full list of fragment pieces `replaceInTextNode` builds for a
text value. -/
def buildPieces (l : List Char) : List Piece := buildPiecesAux l.length l

/-- Width, in `ch` units, of the input created for an underscore run:
`Math.max(2, underscoresCount)`. -/
def inputWidthCh (k : Nat) : Nat := max 2 k

/-- `createInputFor(underscoresCount)`: a text input with the input
class, a width of `max(2, count)` character units, the underscore count
recorded in `data-underscores`, an accessibility label, and the inline
presentation styles the script sets. -/
def createInputFor (k : Nat) : Node :=
  Node.elem "input" INPUT_CLASS
    [("type", "text"),
     ("style.width", toString (inputWidthCh k) ++ "ch"),
     ("data-underscores", toString k),
     ("aria-label", "fillable"),
     ("autocomplete", "off"),
     ("spellcheck", "false"),
     ("style.background", "transparent"),
     ("style.border", "none"),
     ("style.borderBottom", "1px solid #000"),
     ("style.padding", "0"),
     ("style.margin", "0 .1ch"),
     ("style.boxSizing", "content-box"),
     ("style.font", "inherit")]
    none []

/-- Realise a fragment piece as a DOM node. -/
def pieceToNode : Piece → Node
  | Piece.txt s => Node.text s
  | Piece.field k => createInputFor k

/-- The wrapper `span` that `replaceInTextNode` substitutes for a
matched text node: marker class, original text stored in
`dataset.original`, children the realised fragment pieces. -/
def wrapNode (v : List Char) : Node :=
  Node.elem "span" WRAPPER_CLASS [] (some v) ((buildPieces v).map pieceToNode)

/-- `replaceInTextNode(node)` on a text value: `none` models returning
`false` with no DOM change (empty value, or no match), `some` the
substituted wrapper. -/
def replaceInTextNode (v : List Char) : Option Node :=
  if v = [] then none
  else if (findFirst v).isSome then some (wrapNode v) else none

/-- The tag exemption list of the tree-walker filter. -/
def exempt (tag : String) : Bool :=
  (["script", "style", "textarea", "code", "pre", "input", "select",
    "button", "svg"] : List String).contains tag

/-- `acceptNode` of the tree walker, for a text value whose parent
element has the given tag: the value must not be blank, the parent tag
must not be exempt, and the pattern must match.  (In the tree model a
text node's parent is always an element, so the node-type test of the
source holds by construction; an empty value is blank.) -/
def accepts (parentTag : String) (v : List Char) : Bool :=
  !(v.all isJsSpace) && !(exempt parentTag) && (findFirst v).isSome

mutual
/-- `scan(root)` without the try/catch: walk the tree, and replace every
accepted text node the way `replaceInTextNode` does.  The source
collects the walker's nodes first and then replaces them; each
replacement only substitutes the collected node in place, so the
collect-then-mutate loop computes this recursive rewrite. -/
def scanNode : Node → Node
  | Node.text v => Node.text v
  | Node.elem tag cls attrs dorig cs =>
    Node.elem tag cls attrs dorig (scanChildren tag cs)

/-- Child list of an element under `scan`: text children are filtered by
`accepts` against the parent tag and replaced via `replaceInTextNode`;
element children are scanned recursively. -/
def scanChildren (tag : String) : List Node → List Node
  | [] => []
  | Node.text v :: cs =>
    (if accepts tag v then (replaceInTextNode v).getD (Node.text v)
     else Node.text v) :: scanChildren tag cs
  | Node.elem t2 c2 a2 d2 cs2 :: cs =>
    scanNode (Node.elem t2 c2 a2 d2 cs2) :: scanChildren tag cs
end

mutual
/-- `afterPrint` on one node: a `span` carrying the wrapper class whose
`dataset.original` is present is replaced by a plain text node holding
the stored original; every other node keeps its identity and is
traversed (a marker-classed span without the dataset entry is skipped by
the `original !== undefined` guard, but markers among its descendants
are still found by the selector). -/
def revertNode : Node → Node
  | Node.text v => Node.text v
  | Node.elem tag cls attrs dorig cs =>
    if tag = "span" && cls = WRAPPER_CLASS then
      match dorig with
      | some orig => Node.text orig
      | none => Node.elem tag cls attrs dorig (revertChildren cs)
    else Node.elem tag cls attrs dorig (revertChildren cs)

/-- `afterPrint` over a child list. -/
def revertChildren : List Node → List Node
  | [] => []
  | c :: cs => revertNode c :: revertChildren cs
end

mutual
/-- No marker container (wrapper-classed `span` with a stored original)
occurs anywhere in the node. -/
def cleanNode : Node → Bool
  | Node.text _ => true
  | Node.elem tag cls _ dorig cs =>
    !(tag = "span" && cls = WRAPPER_CLASS && dorig.isSome) && cleanChildren cs

/-- No marker container occurs anywhere in the list. -/
def cleanChildren : List Node → Bool
  | [] => true
  | c :: cs => cleanNode c && cleanChildren cs
end

/-- The `dataset.original` entry of a node (`undefined` on text nodes). -/
def storedOriginal : Node → Option (List Char)
  | Node.text _ => none
  | Node.elem _ _ _ dorig _ => dorig

/-- The attribute list of a node (empty on text nodes). -/
def attrsOf : Node → List (String × String)
  | Node.text _ => []
  | Node.elem _ _ attrs _ _ => attrs

/-- The children of a node (empty on text nodes). -/
def childrenOf : Node → List Node
  | Node.text _ => []
  | Node.elem _ _ _ _ cs => cs

/-- Look up an attribute value by name. -/
def lookupAttr (key : String) : List (String × String) → Option String
  | [] => none
  | (a, w) :: rest => if a = key then some w else lookupAttr key rest

/-- The observable content of a wrapper's child list, reading text nodes
(with adjacent text nodes coalesced, as DOM text content is) and the
`style.width` of each element. -/
def segments : List Node → List (List Char ⊕ String)
  | [] => []
  | Node.text v :: rest =>
    match segments rest with
    | Sum.inl w :: tail => Sum.inl (v ++ w) :: tail
    | tail => Sum.inl v :: tail
  | Node.elem _ _ attrs _ _ :: rest =>
    Sum.inr ((lookupAttr "style.width" attrs).getD "") :: segments rest

/-- Flatten fragment pieces back to text, rendering a field as the
underscore run it was created from. -/
def flattenPieces : List Piece → List Char
  | [] => []
  | Piece.txt s :: rest => s ++ flattenPieces rest
  | Piece.field k :: rest => List.replicate k '_' ++ flattenPieces rest

mutual
/-- Whether some element in the node carries the given `id` attribute
(the reach of `document.getElementById`). -/
def hasIdN (idv : String) : Node → Bool
  | Node.text _ => false
  | Node.elem _ _ attrs _ cs =>
    lookupAttr "id" attrs = some idv || hasIdL idv cs

/-- `hasIdN` over a node list. -/
def hasIdL (idv : String) : List Node → Bool
  | [] => false
  | c :: cs => hasIdN idv c || hasIdL idv cs
end

mutual
/-- Number of elements in the node carrying the given `id` attribute. -/
def countIdN (idv : String) : Node → Nat
  | Node.text _ => 0
  | Node.elem _ _ attrs _ cs =>
    (if lookupAttr "id" attrs = some idv then 1 else 0) + countIdL idv cs

/-- `countIdN` over a node list. -/
def countIdL (idv : String) : List Node → Nat
  | [] => 0
  | c :: cs => countIdN idv c + countIdL idv cs
end

/-- The `style` element `ensureStyle` creates: id `STYLE_ID`, appended
to the document head.  Its text content is the print-scoped CSS of the
script, which is purely presentational and not observed by any
operation here, so it is not carried in the model. -/
def styleElem : Node :=
  Node.elem "style" "" [("id", STYLE_ID)] none []

/-- A document: the head child list and the body. -/
structure Doc where
  head : List Node
  body : Node

/-- Whether `document.getElementById(STYLE_ID)` finds an element. -/
def docHasStyle (d : Doc) : Bool :=
  hasIdL STYLE_ID d.head || hasIdN STYLE_ID d.body

/-- `ensureStyle()`: append the style element to the head unless an
element with the fixed id already exists. -/
def ensureStyle (d : Doc) : Doc :=
  if docHasStyle d then d else { d with head := d.head ++ [styleElem] }

/-- Number of elements with the fixed style id in the whole document. -/
def countStyle (d : Doc) : Nat :=
  countIdL STYLE_ID d.head + countIdN STYLE_ID d.body

/-- `beforePrint()`: ensure the style block, then scan the body. -/
def beforePrint (d : Doc) : Doc :=
  let d1 := ensureStyle d
  { d1 with body := scanNode d1.body }

/-- `afterPrint()`: revert every marker container in the document. -/
def afterPrint (d : Doc) : Doc :=
  { head := revertChildren d.head, body := revertNode d.body }

/-- No marker container anywhere in the document. -/
def docClean (d : Doc) : Bool :=
  cleanChildren d.head && cleanNode d.body

/-- The warning message `scan` logs when its body throws. -/
def warnMsg : String := "print-fillers: scanning failed"

mutual
/-- The body of `scan` under fault injection: `fault v = true` means the
replacement of the accepted text node with value `v` throws.  Returns
the document as mutated so far and whether the traversal aborted; after
an abort the remaining collected nodes are left untouched, which is the
heap state the thrown exception leaves behind. -/
def scanNodeF (fault : List Char → Bool) : Node → Node × Bool
  | Node.text v => (Node.text v, false)
  | Node.elem tag cls attrs dorig cs =>
    let p := scanChildrenF fault tag cs
    (Node.elem tag cls attrs dorig p.1, p.2)

/-- `scanNodeF` over a child list, stopping at the first fault. -/
def scanChildrenF (fault : List Char → Bool) (tag : String) :
    List Node → List Node × Bool
  | [] => ([], false)
  | Node.text v :: cs =>
    if accepts tag v then
      if fault v then (Node.text v :: cs, true)
      else
        let p := scanChildrenF fault tag cs
        ((replaceInTextNode v).getD (Node.text v) :: p.1, p.2)
    else
      let p := scanChildrenF fault tag cs
      (Node.text v :: p.1, p.2)
  | Node.elem t2 c2 a2 d2 cs2 :: cs =>
    let q := scanNodeF fault (Node.elem t2 c2 a2 d2 cs2)
    if q.2 then (q.1 :: cs, true)
    else
      let p := scanChildrenF fault tag cs
      (q.1 :: p.1, p.2)
end

/-- The traversal inside `scan`'s try block, as a fallible computation:
an abort surfaces as an exception carrying the partially transformed
document (the heap state at the throw). -/
def scanBody (fault : List Char → Bool) (root : Node) :
    Except (String × Node) Node :=
  let p := scanNodeF fault root
  if p.2 then Except.error (warnMsg, p.1) else Except.ok p.1

/-- `scan(root)` with its try/catch: the caught branch logs the warning
and returns normally with the document as the failure left it. -/
def scanOp (fault : List Char → Bool) (root : Node) : Node × List String :=
  match scanBody fault root with
  | Except.ok d => (d, [])
  | Except.error (w, d) => (d, [w])

/-- The wrapper installed over `window.print`: run `beforePrint` inside
a try/catch (modelled by an arbitrary fallible pre-step whose error
value carries the document state the failure left behind), call the
original print action on the resulting document, try to schedule the
delayed revert, and return the action's result.  The third component
records whether the revert got scheduled. -/
def wrappedPrint {R : Type} (pre : Doc → Except Doc Doc)
    (origPrint : Doc → Doc × R) (schedFails : Bool) (d : Doc) :
    Doc × R × Bool :=
  let d1 := match pre d with
    | Except.ok x => x
    | Except.error x => x
  let dr := origPrint d1
  (dr.1, dr.2, !schedFails)

/-! ### Properties of the matcher -/

/-- Unfolding of `findFirst` on a non-empty text. -/
theorem findFirst_cons (c : Char) (t : List Char) :
    findFirst (c :: t) =
      match (if c = ':' then matchAt t else none) with
      | some (s, k, r) => some (([] : List Char), s, k, r)
      | none =>
        match findFirst t with
        | some (b, s, k, r) => some (c :: b, s, k, r)
        | none => none := rfl

/-- A successful `matchAt` decomposes its input into the captured
whitespace, the underscore run and the rest. -/
theorem matchAt_some {t s : List Char} {k : Nat} {r : List Char}
    (h : matchAt t = some (s, k, r)) :
    t = s ++ (List.replicate k '_' ++ r)
    ∧ (∀ c ∈ s, isJsSpace c = true) ∧ 5 ≤ k := by
  unfold matchAt at h
  split at h
  · rename_i h5
    injection h with h1
    obtain ⟨e1, e2, e3⟩ : s = t.takeWhile isJsSpace
        ∧ k = ((t.dropWhile isJsSpace).takeWhile (fun x => x = '_')).length
        ∧ r = (t.dropWhile isJsSpace).dropWhile (fun x => x = '_') := by
      refine ⟨?_, ?_, ?_⟩ <;> cases h1 <;> rfl
    subst e1; subst e2; subst e3
    refine ⟨?_, fun c hc => List.mem_takeWhile_imp hc, h5⟩
    have hrep : (t.dropWhile isJsSpace).takeWhile (fun x => x = '_') =
        List.replicate ((t.dropWhile isJsSpace).takeWhile (fun x => x = '_')).length '_' := by
      rw [List.eq_replicate_iff]
      exact ⟨rfl, fun b hb => by
        have := List.mem_takeWhile_imp hb
        exact of_decide_eq_true this⟩
    conv_lhs => rw [← List.takeWhile_append_dropWhile isJsSpace t]
    congr 1
    conv_lhs => rw [← List.takeWhile_append_dropWhile (fun x => x = '_')
      (t.dropWhile isJsSpace)]
    rw [← hrep]
  · exact absurd h (by simp)

/-- `matchAt` fails exactly when the underscore run after the captured
whitespace is shorter than five. -/
theorem matchAt_eq_none {t : List Char} :
    matchAt t = none ↔
      ((t.dropWhile isJsSpace).takeWhile (fun x => x = '_')).length < 5 := by
  unfold matchAt
  split <;> rename_i h5 <;> simp <;> omega

/-- Taking while over a longer list yields at least as long a result. -/
theorem length_takeWhile_append_le (p : Char → Bool) (x y : List Char) :
    (x.takeWhile p).length ≤ ((x ++ y).takeWhile p).length := by
  induction x with
  | nil => simp
  | cons c t ih =>
    simp only [List.cons_append, List.takeWhile_cons]
    by_cases h : p c
    · simp only [h, if_true, List.length_cons]
      omega
    · simp [h]

/-- `dropWhile` over an append. -/
theorem dropWhile_append_eq (p : Char → Bool) (x y : List Char) :
    (x ++ y).dropWhile p =
      if (x.dropWhile p).isEmpty then y.dropWhile p else x.dropWhile p ++ y := by
  induction x with
  | nil => simp
  | cons c t ih =>
    by_cases h : p c <;> simp [List.dropWhile_cons, h, ih]

/-- Extending a text to the right cannot shorten the underscore run the
matcher sees after the leading whitespace. -/
theorem runLen_append_le (x y : List Char) :
    ((x.dropWhile isJsSpace).takeWhile (fun c => c = '_')).length ≤
    (((x ++ y).dropWhile isJsSpace).takeWhile (fun c => c = '_')).length := by
  rw [dropWhile_append_eq]
  by_cases h : (x.dropWhile isJsSpace).isEmpty
  · have hx : x.dropWhile isJsSpace = [] := by
      cases he : x.dropWhile isJsSpace
      · rfl
      · rw [he] at h; simp [List.isEmpty] at h
    rw [if_pos h, hx]
    simp
  · rw [if_neg h]
    exact length_takeWhile_append_le _ _ _

/-- A successful `findFirst` decomposes the text into the unmatched
part, the colon, the captured whitespace, the underscore run and the
rest. -/
theorem findFirst_decomp :
    ∀ {l b s : List Char} {k : Nat} {r : List Char},
      findFirst l = some (b, s, k, r) →
      l = b ++ ':' :: (s ++ (List.replicate k '_' ++ r))
      ∧ (∀ c ∈ s, isJsSpace c = true) ∧ 5 ≤ k := by
  intro l
  induction l with
  | nil => intro b s k r h; simp [findFirst] at h
  | cons c t ih =>
    intro b s k r h
    rw [findFirst_cons] at h
    by_cases hc : c = ':'
    · rw [if_pos hc] at h
      cases hm : matchAt t with
      | some p =>
        obtain ⟨s2, k2, r2⟩ := p
        rw [hm] at h
        simp only [] at h
        injection h with h1
        obtain ⟨e0, e1, e2, e3⟩ : b = [] ∧ s = s2 ∧ k = k2 ∧ r = r2 := by
          refine ⟨?_, ?_, ?_, ?_⟩ <;> cases h1 <;> rfl
        subst e0; subst e1; subst e2; subst e3; subst hc
        obtain ⟨ht, hsp, hk⟩ := matchAt_some hm
        exact ⟨by rw [← ht]; rfl, hsp, hk⟩
      | none =>
        rw [hm] at h
        simp only [] at h
        cases hf : findFirst t with
        | none => rw [hf] at h; exact absurd h (by simp)
        | some q =>
          obtain ⟨b2, s2, k2, r2⟩ := q
          rw [hf] at h
          injection h with h1
          obtain ⟨e0, e1, e2, e3⟩ : b = c :: b2 ∧ s = s2 ∧ k = k2 ∧ r = r2 := by
            refine ⟨?_, ?_, ?_, ?_⟩ <;> cases h1 <;> rfl
          subst e0; subst e1; subst e2; subst e3
          obtain ⟨ht, hsp, hk⟩ := ih hf
          exact ⟨by rw [List.cons_append, ← ht], hsp, hk⟩
    · rw [if_neg hc] at h
      simp only [] at h
      cases hf : findFirst t with
      | none => rw [hf] at h; exact absurd h (by simp)
      | some q =>
        obtain ⟨b2, s2, k2, r2⟩ := q
        rw [hf] at h
        injection h with h1
        obtain ⟨e0, e1, e2, e3⟩ : b = c :: b2 ∧ s = s2 ∧ k = k2 ∧ r = r2 := by
          refine ⟨?_, ?_, ?_, ?_⟩ <;> cases h1 <;> rfl
        subst e0; subst e1; subst e2; subst e3
        obtain ⟨ht, hsp, hk⟩ := ih hf
        exact ⟨by rw [List.cons_append, ← ht], hsp, hk⟩

/-- Leftmost-match property: the text before the first match contains
no match of its own (global regex semantics advance one position at a
time until the earliest match). -/
theorem findFirst_before_eq_none :
    ∀ {l b s : List Char} {k : Nat} {r : List Char},
      findFirst l = some (b, s, k, r) → findFirst b = none := by
  intro l
  induction l with
  | nil => intro b s k r h; simp [findFirst] at h
  | cons c t ih =>
    intro b s k r h
    rw [findFirst_cons] at h
    by_cases hc : c = ':'
    · rw [if_pos hc] at h
      cases hm : matchAt t with
      | some p =>
        obtain ⟨s2, k2, r2⟩ := p
        rw [hm] at h
        simp only [] at h
        have e0 : b = [] := by injection h with h1; cases h1; rfl
        subst e0; rfl
      | none =>
        rw [hm] at h
        simp only [] at h
        cases hf : findFirst t with
        | none => rw [hf] at h; exact absurd h (by simp)
        | some q =>
          obtain ⟨b2, s2, k2, r2⟩ := q
          rw [hf] at h
          have e0 : b = c :: b2 := by injection h with h1; cases h1; rfl
          subst e0
          rw [findFirst_cons, if_pos hc]
          have ht := (findFirst_decomp hf).1
          have hm2 : matchAt b2 = none := by
            rw [matchAt_eq_none]
            have h1 := matchAt_eq_none.mp hm
            have h2 := runLen_append_le b2 (':' :: (s2 ++ (List.replicate k2 '_' ++ r2)))
            rw [← ht] at h2
            omega
          rw [hm2]
          simp only []
          rw [ih hf]
    · rw [if_neg hc] at h
      simp only [] at h
      cases hf : findFirst t with
      | none => rw [hf] at h; exact absurd h (by simp)
      | some q =>
        obtain ⟨b2, s2, k2, r2⟩ := q
        rw [hf] at h
        have e0 : b = c :: b2 := by injection h with h1; cases h1; rfl
        subst e0
        rw [findFirst_cons, if_neg hc]
        simp only []
        rw [ih hf]

/-- Each match consumes at least the colon, so the rest is shorter. -/
theorem findFirst_rest_lt {l b s : List Char} {k : Nat} {r : List Char}
    (h : findFirst l = some (b, s, k, r)) : r.length < l.length := by
  obtain ⟨hl, _, hk⟩ := findFirst_decomp h
  rw [hl]
  simp [List.length_append]
  omega

/-- Text consisting only of whitespace contains no match. -/
theorem findFirst_of_all_space :
    ∀ {s : List Char}, (∀ c ∈ s, isJsSpace c = true) → findFirst s = none := by
  intro s
  induction s with
  | nil => intro _; rfl
  | cons c t ih =>
    intro h
    have hc : ¬ c = ':' := by
      intro e
      subst e
      exact absurd (h ':' (List.mem_cons_self _ _)) (by decide)
    rw [findFirst_cons, if_neg hc]
    simp only []
    rw [ih fun x hx => h x (List.mem_cons_of_mem _ hx)]

/-- A colon followed only by whitespace contains no match. -/
theorem findFirst_colon_space {s : List Char}
    (h : ∀ c ∈ s, isJsSpace c = true) : findFirst (':' :: s) = none := by
  rw [findFirst_cons, if_pos rfl]
  have hd : s.dropWhile isJsSpace = [] := List.dropWhile_eq_nil_iff.mpr h
  have hm : matchAt s = none := by
    rw [matchAt_eq_none, hd]
    simp
  rw [hm]
  simp only []
  rw [findFirst_of_all_space h]

/-! ### Properties of the fragment builder -/

/-- The fuel of `buildPiecesAux` does not matter once it covers the
text's length. -/
theorem buildPiecesAux_stable (f : Nat) :
    ∀ l : List Char, l.length ≤ f → buildPiecesAux f l = buildPieces l := by
  induction f using Nat.strong_induction_on with
  | _ f ih =>
    intro l hl
    cases f with
    | zero =>
      have : l = [] := List.length_eq_zero.mp (Nat.le_zero.mp hl)
      subst this; rfl
    | succ f2 =>
      cases l with
      | nil => rfl
      | cons c t =>
        show buildPiecesAux (f2 + 1) (c :: t) = buildPiecesAux (t.length + 1) (c :: t)
        cases hf : findFirst (c :: t) with
        | none => simp [buildPiecesAux, hf]
        | some q =>
          obtain ⟨b, s, k, r⟩ := q
          have hr : r.length < t.length + 1 := by
            simpa using findFirst_rest_lt hf
          have hf2 : t.length ≤ f2 := by simpa using hl
          simp only [buildPiecesAux, hf]
          congr 1
          rw [ih f2 (by omega) r (by omega),
              ih t.length (by omega) r (by omega)]

/-- Unfolding equation for `buildPieces`: emit the pieces of the
leftmost match and continue after it, else emit the non-empty
remainder. -/
theorem buildPieces_eq (l : List Char) :
    buildPieces l =
      match findFirst l with
      | none => if l = [] then [] else [Piece.txt l]
      | some (b, s, k, r) => matchPieces b s k ++ buildPieces r := by
  cases l with
  | nil => rfl
  | cons c t =>
    show buildPiecesAux (t.length + 1) (c :: t) = _
    cases hf : findFirst (c :: t) with
    | none => simp [buildPiecesAux, hf]
    | some q =>
      obtain ⟨b, s, k, r⟩ := q
      have hr : r.length < t.length + 1 := by simpa using findFirst_rest_lt hf
      simp only [buildPiecesAux, hf]
      congr 1
      exact buildPiecesAux_stable t.length r (by omega)

/-- Every plain-text piece the builder emits is free of matches: the
part before a match by leftmost-ness, the colon plus captured
whitespace because whitespace contains no underscores, the remainder
because the loop only stops when no further match exists. -/
theorem buildPieces_txt_no_match (n : Nat) :
    ∀ l : List Char, l.length ≤ n →
      ∀ p, Piece.txt p ∈ buildPieces l → findFirst p = none := by
  induction n using Nat.strong_induction_on with
  | _ n ih =>
    intro l hl p hp
    rw [buildPieces_eq] at hp
    cases hf : findFirst l with
    | none =>
      rw [hf] at hp
      by_cases he : l = []
      · rw [if_pos he] at hp; exact absurd hp (by simp)
      · rw [if_neg he] at hp
        have : p = l := by
          rcases List.mem_singleton.mp hp with h1
          injection h1
        rw [this]; exact hf
    | some q =>
      obtain ⟨b, s, k, r⟩ := q
      rw [hf] at hp
      obtain ⟨hdec, hsp, hk⟩ := findFirst_decomp hf
      rcases List.mem_append.mp hp with h1 | h2
      · unfold matchPieces at h1
        rcases List.mem_append.mp h1 with h3 | h4
        · by_cases hb : b = []
          · rw [if_pos hb] at h3; exact absurd h3 (by simp)
          · rw [if_neg hb] at h3
            have : p = b := by
              rcases List.mem_singleton.mp h3 with h5
              injection h5
            rw [this]
            exact findFirst_before_eq_none hf
        · rcases List.mem_cons.mp h4 with h5 | h6
          · have : p = ':' :: s := by injection h5
            rw [this]
            exact findFirst_colon_space hsp
          · rcases List.mem_cons.mp h6 with h7 | h8
            · exact absurd h7 (by simp)
            · exact absurd h8 (by simp)
      · have hr : r.length < l.length := findFirst_rest_lt hf
        exact ih r.length (by omega) r le_rfl p h2

/-- Any plain-text piece of the builder contains no match. -/
theorem txt_piece_no_match {l p : List Char}
    (hp : Piece.txt p ∈ buildPieces l) : findFirst p = none :=
  buildPieces_txt_no_match l.length l le_rfl p hp

/-- `flattenPieces` distributes over append. -/
theorem flattenPieces_append (a b : List Piece) :
    flattenPieces (a ++ b) = flattenPieces a ++ flattenPieces b := by
  induction a with
  | nil => rfl
  | cons p rest ih =>
    cases p <;> simp [flattenPieces, ih]

/-- Rendering every field back as its underscore run reconstructs the
original text exactly: the builder keeps all unmatched text and each
match contributes one field per underscore run, in order. -/
theorem flatten_buildPieces_aux (n : Nat) :
    ∀ l : List Char, l.length ≤ n → flattenPieces (buildPieces l) = l := by
  induction n using Nat.strong_induction_on with
  | _ n ih =>
    intro l hl
    rw [buildPieces_eq]
    cases hf : findFirst l with
    | none =>
      by_cases he : l = []
      · rw [if_pos he, he]; rfl
      · rw [if_neg he]; simp [flattenPieces]
    | some q =>
      obtain ⟨b, s, k, r⟩ := q
      obtain ⟨hdec, hsp, hk⟩ := findFirst_decomp hf
      have hr : r.length < l.length := findFirst_rest_lt hf
      rw [flattenPieces_append]
      rw [ih r.length (by omega) r le_rfl]
      unfold matchPieces
      by_cases hb : b = []
      · rw [if_pos hb]
        simp [flattenPieces, hdec, hb]
      · rw [if_neg hb]
        rw [flattenPieces_append]
        simp [flattenPieces, hdec]

/-- Content preservation of the fragment builder. -/
theorem flatten_buildPieces (l : List Char) :
    flattenPieces (buildPieces l) = l :=
  flatten_buildPieces_aux l.length l le_rfl

/-- On a text the pattern matches, `replaceInTextNode` replaces the
node with the wrapper. -/
theorem replaceInTextNode_of_isSome {v : List Char}
    (h : (findFirst v).isSome = true) :
    replaceInTextNode v = some (wrapNode v) := by
  have hv : ¬ v = [] := by
    intro e
    rw [e] at h
    simp [findFirst] at h
  simp [replaceInTextNode, hv, h]

/-! ### Properties of scan and revert on trees -/

/-- A text value accepted by the walker has a match. -/
theorem accepts_isSome {tag : String} {v : List Char}
    (h : accepts tag v = true) : (findFirst v).isSome = true := by
  simp [accepts] at h
  exact h.2

/-- A text value with no match is not accepted. -/
theorem accepts_eq_false_of_none {tag : String} {v : List Char}
    (h : findFirst v = none) : accepts tag v = false := by
  simp [accepts, h]

/-- Scanning an input element changes nothing: it has no children. -/
theorem scanNode_input (k : Nat) :
    scanNode (createInputFor k) = createInputFor k := by
  simp [createInputFor, scanNode, scanChildren]

/-- A second scan pass over the realised fragment pieces of a wrapper
finds nothing to do: no text piece matches the pattern, and the inputs
are childless elements. -/
theorem scanChildren_pieces (tag : String) (ps : List Piece)
    (h : ∀ s, Piece.txt s ∈ ps → findFirst s = none) :
    scanChildren tag (ps.map pieceToNode) = ps.map pieceToNode := by
  induction ps with
  | nil => rfl
  | cons p rest ih =>
    have ih2 := ih fun s hs => h s (List.mem_cons_of_mem _ hs)
    cases p with
    | txt s =>
      have hs : findFirst s = none := h s (by simp)
      simp [pieceToNode, scanChildren, accepts_eq_false_of_none hs, ih2]
    | field k =>
      simp only [List.map_cons, pieceToNode]
      rw [show scanChildren tag (createInputFor k :: rest.map pieceToNode)
            = scanNode (createInputFor k) :: scanChildren tag (rest.map pieceToNode) from by
          simp [createInputFor, scanChildren]]
      rw [scanNode_input, ih2]

/-- Scanning a wrapper created by `replaceInTextNode` leaves it
unchanged. -/
theorem scanNode_wrap (v : List Char) : scanNode (wrapNode v) = wrapNode v := by
  unfold wrapNode
  rw [show scanNode (Node.elem "span" WRAPPER_CLASS [] (some v)
        ((buildPieces v).map pieceToNode))
      = Node.elem "span" WRAPPER_CLASS [] (some v)
        (scanChildren "span" ((buildPieces v).map pieceToNode)) from by
    simp [scanNode]]
  rw [scanChildren_pieces _ _ fun s hs => txt_piece_no_match hs]

/-- Reverting a wrapper restores exactly the stored original text. -/
theorem revertNode_wrap (v : List Char) :
    revertNode (wrapNode v) = Node.text v := by
  simp [wrapNode, revertNode, WRAPPER_CLASS]

/-- Reverting a document with no marker containers changes nothing. -/
theorem revertNode_of_clean : ∀ n : Node, cleanNode n = true → revertNode n = n := by
  intro n
  induction n using Node.rec
    (motive_2 := fun cs => cleanChildren cs = true → revertChildren cs = cs) with
  | text v => intro _; rfl
  | elem tag cls attrs dorig cs ih =>
    intro h
    simp only [cleanNode, Bool.and_eq_true, Bool.not_eq_true] at h
    obtain ⟨h1, h2⟩ := h
    by_cases hs : tag = "span" ∧ cls = WRAPPER_CLASS
    · have hd : dorig = none := by
        cases dorig with
        | none => rfl
        | some o => simp [hs.1, hs.2] at h1
      subst hd
      simp [revertNode, hs.1, hs.2, ih h2]
    · have hb : (tag = "span" && cls = WRAPPER_CLASS) = false := by
        rcases not_and_or.mp hs with h3 | h3 <;> simp [h3]
      simp [revertNode, hb, ih h2]
  | nil => rfl
  | cons c cs ihc ihcs =>
    rename_i h
    simp only [cleanChildren, Bool.and_eq_true] at h
    simp [revertChildren, ihc h.1, ihcs h.2]

/-- List version of `revertNode_of_clean`. -/
theorem revertChildren_of_clean :
    ∀ cs : List Node, cleanChildren cs = true → revertChildren cs = cs := by
  intro cs
  induction cs with
  | nil => intro _; rfl
  | cons c rest ih =>
    intro h
    simp only [cleanChildren, Bool.and_eq_true] at h
    simp [revertChildren, revertNode_of_clean c h.1, ih h.2]

/-- Reverting after scanning restores a marker-free document exactly. -/
theorem revert_scanNode_of_clean :
    ∀ n : Node, cleanNode n = true → revertNode (scanNode n) = n := by
  intro n
  induction n using Node.rec
    (motive_2 := fun cs => cleanChildren cs = true →
      ∀ tag, revertChildren (scanChildren tag cs) = cs) with
  | text v => intro _; rfl
  | elem tag cls attrs dorig cs ih =>
    intro h
    simp only [cleanNode, Bool.and_eq_true, Bool.not_eq_true] at h
    obtain ⟨h1, h2⟩ := h
    rw [show scanNode (Node.elem tag cls attrs dorig cs)
          = Node.elem tag cls attrs dorig (scanChildren tag cs) from by
        simp [scanNode]]
    by_cases hs : tag = "span" ∧ cls = WRAPPER_CLASS
    · have hd : dorig = none := by
        cases dorig with
        | none => rfl
        | some o => simp [hs.1, hs.2] at h1
      subst hd
      simp [revertNode, hs.1, hs.2, ih h2]
    · have hb : (tag = "span" && cls = WRAPPER_CLASS) = false := by
        rcases not_and_or.mp hs with h3 | h3 <;> simp [h3]
      simp [revertNode, hb, ih h2]
  | nil => rfl
  | cons c cs ihc ihcs =>
    rename_i h tag
    simp only [cleanChildren, Bool.and_eq_true] at h
    cases c with
    | text v =>
      by_cases ha : accepts tag v = true
      · rw [show scanChildren tag (Node.text v :: cs)
              = (replaceInTextNode v).getD (Node.text v) :: scanChildren tag cs from by
            simp [scanChildren, ha]]
        rw [replaceInTextNode_of_isSome (accepts_isSome ha)]
        simp only [Option.getD_some]
        rw [show revertChildren (wrapNode v :: scanChildren tag cs)
              = revertNode (wrapNode v) :: revertChildren (scanChildren tag cs) from rfl]
        rw [revertNode_wrap, ihcs h.2 tag]
      · rw [show scanChildren tag (Node.text v :: cs)
              = Node.text v :: scanChildren tag cs from by
            simp [scanChildren, ha]]
        rw [show revertChildren (Node.text v :: scanChildren tag cs)
              = Node.text v :: revertChildren (scanChildren tag cs) from rfl]
        rw [ihcs h.2 tag]
    | elem t2 c2 a2 d2 cs2 =>
      rw [show scanChildren tag (Node.elem t2 c2 a2 d2 cs2 :: cs)
            = scanNode (Node.elem t2 c2 a2 d2 cs2) :: scanChildren tag cs from by
          simp [scanChildren]]
      rw [show revertChildren (scanNode (Node.elem t2 c2 a2 d2 cs2) :: scanChildren tag cs)
            = revertNode (scanNode (Node.elem t2 c2 a2 d2 cs2))
              :: revertChildren (scanChildren tag cs) from rfl]
      rw [ihc h.1, ihcs h.2 tag]

/-- Scanning is idempotent: a second pass finds no new matches, neither
in untouched text nor inside the wrappers the first pass created. -/
theorem scanNode_idem : ∀ n : Node, scanNode (scanNode n) = scanNode n := by
  intro n
  induction n using Node.rec
    (motive_2 := fun cs => ∀ tag,
      scanChildren tag (scanChildren tag cs) = scanChildren tag cs) with
  | text v => rfl
  | elem tag cls attrs dorig cs ih =>
    rw [show scanNode (Node.elem tag cls attrs dorig cs)
          = Node.elem tag cls attrs dorig (scanChildren tag cs) from by
        simp [scanNode]]
    rw [show scanNode (Node.elem tag cls attrs dorig (scanChildren tag cs))
          = Node.elem tag cls attrs dorig (scanChildren tag (scanChildren tag cs)) from by
        simp [scanNode]]
    rw [ih tag]
  | nil => rfl
  | cons c cs ihc ihcs =>
    rename_i tag
    cases c with
    | text v =>
      by_cases ha : accepts tag v = true
      · rw [show scanChildren tag (Node.text v :: cs)
              = (replaceInTextNode v).getD (Node.text v) :: scanChildren tag cs from by
            simp [scanChildren, ha]]
        rw [replaceInTextNode_of_isSome (accepts_isSome ha)]
        simp only [Option.getD_some]
        rw [show scanChildren tag (wrapNode v :: scanChildren tag cs)
              = scanNode (wrapNode v) :: scanChildren tag (scanChildren tag cs) from by
            simp [wrapNode, scanChildren]]
        rw [scanNode_wrap, ihcs tag]
      · rw [show scanChildren tag (Node.text v :: cs)
              = Node.text v :: scanChildren tag cs from by
            simp [scanChildren, ha]]
        rw [show scanChildren tag (Node.text v :: scanChildren tag cs)
              = Node.text v :: scanChildren tag (scanChildren tag cs) from by
            simp [scanChildren, ha]]
        rw [ihcs tag]
    | elem t2 c2 a2 d2 cs2 =>
      rw [show scanChildren tag (Node.elem t2 c2 a2 d2 cs2 :: cs)
            = scanNode (Node.elem t2 c2 a2 d2 cs2) :: scanChildren tag cs from by
          simp [scanChildren]]
      rw [show scanNode (Node.elem t2 c2 a2 d2 cs2)
            = Node.elem t2 c2 a2 d2 (scanChildren t2 cs2) from by
          simp [scanNode]]
      rw [show scanChildren tag (Node.elem t2 c2 a2 d2 (scanChildren t2 cs2) :: scanChildren tag cs)
            = scanNode (Node.elem t2 c2 a2 d2 (scanChildren t2 cs2))
              :: scanChildren tag (scanChildren tag cs) from by
          simp [scanChildren]]
      rw [show scanNode (Node.elem t2 c2 a2 d2 (scanChildren t2 cs2))
            = Node.elem t2 c2 a2 d2 (scanChildren t2 (scanChildren t2 cs2)) from by
          simp [scanNode]]
      have he := ihc
      rw [show scanNode (Node.elem t2 c2 a2 d2 cs2)
            = Node.elem t2 c2 a2 d2 (scanChildren t2 cs2) from by
          simp [scanNode]] at he
      rw [show scanNode (Node.elem t2 c2 a2 d2 (scanChildren t2 cs2))
            = Node.elem t2 c2 a2 d2 (scanChildren t2 (scanChildren t2 cs2)) from by
          simp [scanNode]] at he
      have he2 : scanChildren t2 (scanChildren t2 cs2) = scanChildren t2 cs2 := by
        injection he
      rw [he2, ihcs tag]

/-! ### The style block and its id -/

/-- No node realised from a fragment piece carries any `id`. -/
theorem countIdL_pieces (idv : String) (ps : List Piece) :
    countIdL idv (ps.map pieceToNode) = 0 := by
  induction ps with
  | nil => rfl
  | cons p rest ih =>
    cases p with
    | txt s => simp [pieceToNode, countIdL, countIdN, ih]
    | field k =>
      simp [pieceToNode, createInputFor, countIdL, countIdN, lookupAttr, ih]

/-- A wrapper contributes no element with an `id`. -/
theorem countIdN_wrap (idv : String) (v : List Char) :
    countIdN idv (wrapNode v) = 0 := by
  simp [wrapNode, countIdN, lookupAttr, countIdL_pieces]

/-- Scanning never changes how many elements carry a given `id`: the
wrappers and inputs it creates have none. -/
theorem countIdN_scan : ∀ (n : Node) (idv : String),
    countIdN idv (scanNode n) = countIdN idv n := by
  intro n
  induction n using Node.rec
    (motive_2 := fun cs => ∀ idv tag,
      countIdL idv (scanChildren tag cs) = countIdL idv cs) with
  | text v => intro idv; rfl
  | elem tag cls attrs dorig cs ih =>
    intro idv
    rw [show scanNode (Node.elem tag cls attrs dorig cs)
          = Node.elem tag cls attrs dorig (scanChildren tag cs) from by
        simp [scanNode]]
    simp [countIdN, ih idv tag]
  | nil => rfl
  | cons c cs ihc ihcs =>
    rename_i idv tag
    cases c with
    | text v =>
      by_cases ha : accepts tag v = true
      · rw [show scanChildren tag (Node.text v :: cs)
              = (replaceInTextNode v).getD (Node.text v) :: scanChildren tag cs from by
            simp [scanChildren, ha]]
        rw [replaceInTextNode_of_isSome (accepts_isSome ha)]
        simp only [Option.getD_some]
        rw [show countIdL idv (wrapNode v :: scanChildren tag cs)
              = countIdN idv (wrapNode v) + countIdL idv (scanChildren tag cs) from rfl]
        rw [countIdN_wrap, ihcs idv tag]
        rfl
      · rw [show scanChildren tag (Node.text v :: cs)
              = Node.text v :: scanChildren tag cs from by
            simp [scanChildren, ha]]
        rw [show countIdL idv (Node.text v :: scanChildren tag cs)
              = countIdN idv (Node.text v) + countIdL idv (scanChildren tag cs) from rfl]
        rw [ihcs idv tag]
        rfl
    | elem t2 c2 a2 d2 cs2 =>
      rw [show scanChildren tag (Node.elem t2 c2 a2 d2 cs2 :: cs)
            = scanNode (Node.elem t2 c2 a2 d2 cs2) :: scanChildren tag cs from by
          simp [scanChildren]]
      rw [show countIdL idv (scanNode (Node.elem t2 c2 a2 d2 cs2) :: scanChildren tag cs)
            = countIdN idv (scanNode (Node.elem t2 c2 a2 d2 cs2))
              + countIdL idv (scanChildren tag cs) from rfl]
      rw [ihc idv, ihcs idv tag]
      rfl

/-- `getElementById` finds an element exactly when the count of elements
with the id is non-zero. -/
theorem hasIdN_iff_countIdN : ∀ (n : Node) (idv : String),
    hasIdN idv n = true ↔ countIdN idv n ≠ 0 := by
  intro n
  induction n using Node.rec
    (motive_2 := fun cs => ∀ idv,
      hasIdL idv cs = true ↔ countIdL idv cs ≠ 0) with
  | text v => intro idv; simp [hasIdN, countIdN]
  | elem tag cls attrs dorig cs ih =>
    intro idv
    by_cases ha : lookupAttr "id" attrs = some idv
    · simp [hasIdN, countIdN, ha]
    · simp [hasIdN, countIdN, ha, ih idv]
  | nil => rename_i idv; simp [hasIdL, countIdL]
  | cons c cs ihc ihcs =>
    rename_i idv
    rw [show hasIdL idv (c :: cs) = (hasIdN idv c || hasIdL idv cs) from rfl]
    rw [show countIdL idv (c :: cs) = countIdN idv c + countIdL idv cs from rfl]
    rw [Bool.or_eq_true]
    constructor
    · rintro (h1 | h2)
      · have := (ihc idv).mp h1; omega
      · have := (ihcs idv).mp h2; omega
    · intro h
      by_cases h1 : countIdN idv c = 0
      · exact Or.inr ((ihcs idv).mpr (by omega))
      · exact Or.inl ((ihc idv).mpr h1)

/-- `countIdL` over an append. -/
theorem countIdL_append (idv : String) (a b : List Node) :
    countIdL idv (a ++ b) = countIdL idv a + countIdL idv b := by
  induction a with
  | nil => simp [countIdL]
  | cons c rest ih =>
    rw [List.cons_append,
        show countIdL idv (c :: (rest ++ b))
          = countIdN idv c + countIdL idv (rest ++ b) from rfl,
        show countIdL idv (c :: rest) = countIdN idv c + countIdL idv rest from rfl,
        ih]
    omega

/-- The style element carries exactly the fixed id. -/
theorem countIdN_styleElem : countIdN STYLE_ID styleElem = 1 := rfl

/-! ### Fault-injected scan -/

/-- With no fault injected, the fallible traversal computes exactly the
pure scan and does not abort. -/
theorem scanNodeF_nofault : ∀ n : Node,
    scanNodeF (fun _ => false) n = (scanNode n, false) := by
  intro n
  induction n using Node.rec
    (motive_2 := fun cs => ∀ tag,
      scanChildrenF (fun _ => false) tag cs = (scanChildren tag cs, false)) with
  | text v => rfl
  | elem tag cls attrs dorig cs ih =>
    rw [show scanNodeF (fun _ => false) (Node.elem tag cls attrs dorig cs)
          = (Node.elem tag cls attrs dorig
              (scanChildrenF (fun _ => false) tag cs).1,
             (scanChildrenF (fun _ => false) tag cs).2) from by
        simp [scanNodeF]]
    rw [show scanNode (Node.elem tag cls attrs dorig cs)
          = Node.elem tag cls attrs dorig (scanChildren tag cs) from by
        simp [scanNode]]
    rw [ih tag]
  | nil => rfl
  | cons c cs ihc ihcs =>
    rename_i tag
    cases c with
    | text v =>
      by_cases ha : accepts tag v = true
      · simp [scanChildrenF, scanChildren, ha, ihcs tag]
      · simp [scanChildrenF, scanChildren, ha, ihcs tag]
    | elem t2 c2 a2 d2 cs2 =>
      simp [scanChildrenF, scanChildren, ihc, ihcs tag]

/-- `hasIdL` agrees with a positive count over a list. -/
theorem hasIdL_iff_countIdL :
    ∀ (cs : List Node) (idv : String),
      hasIdL idv cs = true ↔ countIdL idv cs ≠ 0 := by
  intro cs idv
  induction cs with
  | nil => simp [hasIdL, countIdL]
  | cons c rest ih =>
    rw [show hasIdL idv (c :: rest) = (hasIdN idv c || hasIdL idv rest) from rfl,
        show countIdL idv (c :: rest) = countIdN idv c + countIdL idv rest from rfl,
        Bool.or_eq_true]
    have hc := hasIdN_iff_countIdN c idv
    constructor
    · rintro (a | b)
      · have := hc.mp a; omega
      · have := ih.mp b; omega
    · intro hz
      by_cases h0 : countIdN idv c = 0
      · exact Or.inr (ih.mpr (by omega))
      · exact Or.inl (hc.mpr h0)

/-- `docHasStyle` agrees with a positive style count. -/
theorem docHasStyle_iff (d : Doc) : docHasStyle d = true ↔ countStyle d ≠ 0 := by
  unfold docHasStyle countStyle
  rw [Bool.or_eq_true]
  have h1 := hasIdL_iff_countIdL d.head STYLE_ID
  have h2 := hasIdN_iff_countIdN d.body STYLE_ID
  constructor
  · rintro (a | b)
    · have := h1.mp a; omega
    · have := h2.mp b; omega
  · intro hz
    by_cases h0 : countIdL STYLE_ID d.head = 0
    · exact Or.inr (h2.mpr (by omega))
    · exact Or.inl (h1.mpr h0)

/-- Without the style block, `beforePrint` appends it and scans. -/
theorem beforePrint_no_style {d : Doc} (h : docHasStyle d = false) :
    beforePrint d = { head := d.head ++ [styleElem], body := scanNode d.body } := by
  simp [beforePrint, ensureStyle, h]

/-- With the style block present, `beforePrint` only scans. -/
theorem beforePrint_has_style {d : Doc} (h : docHasStyle d = true) :
    beforePrint d = { head := d.head, body := scanNode d.body } := by
  simp [beforePrint, ensureStyle, h]

/-! ### The claims -/

/-- Claim C1: for every text node whose value contains a match of
colon + optional whitespace + at least five underscores, Scan replaces
it by a marker wrapper that stores the full original text verbatim,
Revert replaces that wrapper by a plain text node carrying exactly the
stored text, and on any marker-free document Scan followed by Revert
restores the document byte-for-byte. -/
theorem scan_then_revert_restores_text (v : List Char) (n : Node)
    (hm : (findFirst v).isSome = true) (hc : cleanNode n = true) :
    replaceInTextNode v = some (wrapNode v)
    ∧ storedOriginal (wrapNode v) = some v
    ∧ revertNode (wrapNode v) = Node.text v
    ∧ revertNode (scanNode n) = n :=
  ⟨replaceInTextNode_of_isSome hm, rfl, revertNode_wrap v,
   revert_scanNode_of_clean n hc⟩

/-- Witness for C1 at the text `"Name: _____ Date: ______"` inside a
marker-free two-element document. -/
theorem scan_then_revert_restores_text_witness :
    (findFirst (String.toList "Name: _____ Date: ______")).isSome = true
    ∧ cleanNode (Node.elem "body" "" [] none
        [Node.elem "p" "" [] none
          [Node.text (String.toList "Name: _____ Date: ______")]]) = true
    ∧ revertNode (scanNode (Node.elem "body" "" [] none
        [Node.elem "p" "" [] none
          [Node.text (String.toList "Name: _____ Date: ______")]]))
      = Node.elem "body" "" [] none
        [Node.elem "p" "" [] none
          [Node.text (String.toList "Name: _____ Date: ______")]] :=
  ⟨by decide, by decide,
   (scan_then_revert_restores_text (String.toList "Name: _____ Date: ______")
     (Node.elem "body" "" [] none
       [Node.elem "p" "" [] none
         [Node.text (String.toList "Name: _____ Date: ______")]])
     (by decide) (by decide)).2.2.2⟩

/-- Claim C2: the pattern needs at least five underscores after the
colon and optional whitespace — a run of one to four underscores
produces no match and no field — while a run of exactly five produces a
single field whose width is `max(2, 5) = 5` character units; the sizing
rule for every created field is `max(2, run length)` `ch`. -/
theorem pattern_requires_five_underscores (k : Nat) (h1 : 1 ≤ k) (h2 : k ≤ 4) :
    replaceInTextNode (':' :: List.replicate k '_') = none
    ∧ replaceInTextNode (':' :: List.replicate 5 '_')
        = some (Node.elem "span" WRAPPER_CLASS [] (some (':' :: List.replicate 5 '_'))
            [Node.text [':'], createInputFor 5])
    ∧ lookupAttr "style.width" (attrsOf (createInputFor 5)) = some "5ch"
    ∧ (∀ j : Nat, lookupAttr "style.width" (attrsOf (createInputFor j))
        = some (toString (inputWidthCh j) ++ "ch")) := by
  refine ⟨?_, rfl, rfl, fun j => rfl⟩
  interval_cases k <;> rfl

/-- Witness for C2 at a run of one underscore. -/
theorem pattern_requires_five_underscores_witness :
    1 ≤ 1 ∧ 1 ≤ 4
    ∧ replaceInTextNode (':' :: List.replicate 1 '_') = none :=
  ⟨by decide, by decide, (pattern_requires_five_underscores 1 (by decide) (by decide)).1⟩

/-- Claim C3: every successful replacement wraps the text in a single
marker storing the original verbatim, and the fragment pieces preserve
all unmatched text in order with one field per match (flattening the
pieces with fields rendered as underscore runs reconstructs the text);
for `"Name: _____ Date: ______"` the wrapper's content reads as the
text `"Name: "`, a field of width `5ch`, the text `" Date: "` and a
field of width `6ch`, the stored original equals the initial string,
and Revert restores exactly that string. -/
theorem multi_match_fields_in_order (v : List Char) (n : Node)
    (h : replaceInTextNode v = some n) :
    storedOriginal n = some v
    ∧ flattenPieces (buildPieces v) = v
    ∧ segments (childrenOf (wrapNode (String.toList "Name: _____ Date: ______")))
        = [Sum.inl (String.toList "Name: "), Sum.inr "5ch",
           Sum.inl (String.toList " Date: "), Sum.inr "6ch"]
    ∧ storedOriginal (wrapNode (String.toList "Name: _____ Date: ______"))
        = some (String.toList "Name: _____ Date: ______")
    ∧ revertNode (wrapNode (String.toList "Name: _____ Date: ______"))
        = Node.text (String.toList "Name: _____ Date: ______") := by
  have hn : n = wrapNode v := by
    unfold replaceInTextNode at h
    split at h
    · exact absurd h (by simp)
    · split at h
      · injection h with h1
        exact h1.symm
      · exact absurd h (by simp)
  subst hn
  exact ⟨rfl, flatten_buildPieces v, by decide, rfl, rfl⟩

/-- Witness for C3 at the text `"Name: _____ Date: ______"`. -/
theorem multi_match_fields_in_order_witness :
    replaceInTextNode (String.toList "Name: _____ Date: ______")
      = some (wrapNode (String.toList "Name: _____ Date: ______"))
    ∧ storedOriginal (wrapNode (String.toList "Name: _____ Date: ______"))
      = some (String.toList "Name: _____ Date: ______") :=
  ⟨rfl, (multi_match_fields_in_order (String.toList "Name: _____ Date: ______")
    (wrapNode (String.toList "Name: _____ Date: ______")) rfl).1⟩

/-- Document with matching text nested below an exempt element: the
text node's immediate parent is a `b` element that sits inside a
`pre`. -/
def nestedExemptDoc : Node :=
  Node.elem "pre" "" [] none
    [Node.elem "b" "" [] none [Node.text (String.toList "x: _____")]]

/-- Claim C4, counterexample: the walker's filter only inspects the
text node's immediate parent, so matching text that sits inside an
exempt `pre` but directly inside a nested `b` element IS transformed by
Scan, refuting the claim for text merely located inside an exempt
element. -/
theorem scan_transforms_text_nested_in_exempt :
    scanNode nestedExemptDoc ≠ nestedExemptDoc := by
  intro h
  exact absurd (congrArg cleanNode h) (by decide)

/-- Claim C4 (amended): a text node whose immediate parent element is
of an exempt kind is never transformed by Scan, even if its value
matches the placeholder pattern. -/
theorem exempt_parent_text_never_transformed (tag : String) (v : List Char)
    (cs : List Node) (h : exempt tag = true) :
    scanChildren tag (Node.text v :: cs) = Node.text v :: scanChildren tag cs := by
  have ha : accepts tag v = false := by simp [accepts, h]
  simp [scanChildren, ha]

/-- Witness for the amended C4: matching text directly inside a `pre`
is left untouched. -/
theorem exempt_parent_text_never_transformed_witness :
    exempt "pre" = true
    ∧ scanChildren "pre" [Node.text (String.toList "x: _____")]
        = [Node.text (String.toList "x: _____")] :=
  ⟨by decide,
   (exempt_parent_text_never_transformed "pre" (String.toList "x: _____") []
     (by decide)).trans rfl⟩

/-- Claim C5: starting from a document with no style block, running the
before-print path twice without an intervening revert is idempotent —
the second pass re-injects nothing and leaves every already-created
marker container and its fields unchanged — and exactly one style block
with the fixed id exists afterwards. -/
theorem double_scan_single_style (d : Doc) (h : countStyle d = 0) :
    beforePrint (beforePrint d) = beforePrint d
    ∧ countStyle (beforePrint (beforePrint d)) = 1 := by
  have hz : countIdL STYLE_ID d.head = 0 ∧ countIdN STYLE_ID d.body = 0 := by
    unfold countStyle at h
    omega
  have hh : docHasStyle d = false := by
    cases hb : docHasStyle d
    · rfl
    · exact absurd h ((docHasStyle_iff d).mp hb)
  have hb1 := beforePrint_no_style hh
  have hc1 : countStyle (beforePrint d) = 1 := by
    rw [hb1]
    show countIdL STYLE_ID (d.head ++ [styleElem])
        + countIdN STYLE_ID (scanNode d.body) = 1
    rw [countIdL_append, countIdN_scan]
    have hs : countIdL STYLE_ID [styleElem] = 1 := rfl
    omega
  have hh2 : docHasStyle (beforePrint d) = true :=
    (docHasStyle_iff _).mpr (by omega)
  have hidem : beforePrint (beforePrint d) = beforePrint d := by
    rw [beforePrint_has_style hh2, hb1]
    simp [scanNode_idem]
  exact ⟨hidem, by rw [hidem, hc1]⟩

/-- Witness for C5 at a style-free document with one matching text
node. -/
theorem double_scan_single_style_witness :
    countStyle ⟨[], Node.elem "body" "" [] none
      [Node.text (String.toList "a: _____")]⟩ = 0
    ∧ countStyle (beforePrint (beforePrint ⟨[], Node.elem "body" "" [] none
        [Node.text (String.toList "a: _____")]⟩)) = 1 :=
  ⟨by decide,
   (double_scan_single_style ⟨[], Node.elem "body" "" [] none
     [Node.text (String.toList "a: _____")]⟩ (by decide)).2⟩

/-- Claim C6: the scan operation never propagates an exception: for
every injected fault it returns the document in whatever partially
transformed state the failure left, logging the warning exactly when
the traversal aborted; with no fault it computes the pure scan with an
empty log. -/
theorem scan_catches_and_swallows (fault : List Char → Bool) (root : Node) :
    scanOp fault root
      = ((scanNodeF fault root).1,
         if (scanNodeF fault root).2 = true then [warnMsg] else [])
    ∧ scanOp (fun _ => false) root = (scanNode root, []) := by
  constructor
  · by_cases hab : (scanNodeF fault root).2 = true
    · simp [scanOp, scanBody, hab]
    · simp [scanOp, scanBody, hab]
  · simp [scanOp, scanBody, scanNodeF_nofault root]

/-- Claim C7: reverting a document that contains no marker containers
is a no-op. -/
theorem revert_noop_when_no_markers (d : Doc) (h : docClean d = true) :
    afterPrint d = d := by
  simp only [docClean, Bool.and_eq_true] at h
  show { head := revertChildren d.head, body := revertNode d.body : Doc } = d
  rw [revertChildren_of_clean d.head h.1, revertNode_of_clean d.body h.2]

/-- Witness for C7 at a marker-free document. -/
theorem revert_noop_when_no_markers_witness :
    docClean ⟨[styleElem], Node.elem "body" "" [] none
      [Node.text (String.toList "a: _____"), createInputFor 5]⟩ = true
    ∧ afterPrint ⟨[styleElem], Node.elem "body" "" [] none
        [Node.text (String.toList "a: _____"), createInputFor 5]⟩
      = ⟨[styleElem], Node.elem "body" "" [] none
          [Node.text (String.toList "a: _____"), createInputFor 5]⟩ :=
  ⟨by decide,
   revert_noop_when_no_markers ⟨[styleElem], Node.elem "body" "" [] none
     [Node.text (String.toList "a: _____"), createInputFor 5]⟩ (by decide)⟩

/-- Claim C8: in the intercepted manual print path, whether the
pre-step succeeds or fails and whether scheduling the delayed revert
fails, the underlying print action is invoked (on the state the
pre-step left behind) and its result is returned. -/
theorem wrapped_print_always_runs_action {R : Type} (pre : Doc → Except Doc Doc)
    (origPrint : Doc → Doc × R) (schedFails : Bool) (d : Doc) :
    ∃ d1, (pre d = Except.ok d1 ∨ pre d = Except.error d1)
      ∧ wrappedPrint pre origPrint schedFails d
        = ((origPrint d1).1, (origPrint d1).2, !schedFails) := by
  cases hp : pre d with
  | ok x => exact ⟨x, Or.inl rfl, by simp [wrappedPrint, hp]⟩
  | error x => exact ⟨x, Or.inr rfl, by simp [wrappedPrint, hp]⟩

/-- Claim C9: a marker-classed span without the stored-original dataset
entry is left in place by Revert, together with everything inside it
that is not itself a marker container. -/
theorem revert_skips_marker_without_original (attrs : List (String × String))
    (cs : List Node) (h : cleanChildren cs = true) :
    revertNode (Node.elem "span" WRAPPER_CLASS attrs none cs)
      = Node.elem "span" WRAPPER_CLASS attrs none cs := by
  rw [show revertNode (Node.elem "span" WRAPPER_CLASS attrs none cs)
        = Node.elem "span" WRAPPER_CLASS attrs none (revertChildren cs) from by
      simp [revertNode]]
  rw [revertChildren_of_clean cs h]

/-- Witness for C9 at a marker-classed span holding a field and a text
node. -/
theorem revert_skips_marker_without_original_witness :
    cleanChildren [createInputFor 7, Node.text (String.toList "abc")] = true
    ∧ revertNode (Node.elem "span" WRAPPER_CLASS []
        none [createInputFor 7, Node.text (String.toList "abc")])
      = Node.elem "span" WRAPPER_CLASS []
          none [createInputFor 7, Node.text (String.toList "abc")] :=
  ⟨by decide,
   revert_skips_marker_without_original []
     [createInputFor 7, Node.text (String.toList "abc")] (by decide)⟩

/-- Claim C10: every field created from a match records its exact
underscore-run length in `data-underscores`, every match has run length
at least five, so the floor of two never applies and the field's width
in character units equals exactly the run length. -/
theorem field_width_equals_run_length (v b s : List Char) (k : Nat)
    (r : List Char) (h : findFirst v = some (b, s, k, r)) :
    lookupAttr "data-underscores" (attrsOf (createInputFor k)) = some (toString k)
    ∧ 5 ≤ k
    ∧ inputWidthCh k = k
    ∧ lookupAttr "style.width" (attrsOf (createInputFor k))
        = some (toString k ++ "ch") := by
  have hk := (findFirst_decomp h).2.2
  have hw : inputWidthCh k = k := by
    unfold inputWidthCh
    omega
  refine ⟨rfl, hk, hw, ?_⟩
  have hv : lookupAttr "style.width" (attrsOf (createInputFor k))
      = some (toString (inputWidthCh k) ++ "ch") := rfl
  rw [hv, hw]

/-- Witness for C10 at the text `": _____"`. -/
theorem field_width_equals_run_length_witness :
    findFirst (String.toList ": _____") = some ([], [' '], 5, [])
    ∧ lookupAttr "style.width" (attrsOf (createInputFor 5)) = some ("5" ++ "ch") :=
  ⟨by decide,
   (field_width_equals_run_length (String.toList ": _____") [] [' '] 5 []
     (by decide)).2.2.2⟩

end PrintFillers
